import Mathlib

/-!
Verification of the shell-argument escaping module (escape.rs) of yazi-shared.

The module has two independent escapers:
* a POSIX one over byte sequences, wrapping in single quotes with a special
  splice for the quote and bang bytes, and a zero-copy fast path over an
  allowed byte set;
* a Windows one over 16-bit code-unit sequences, wrapping in double quotes
  with backslash-run doubling, and a zero-copy fast path when no unit is
  disallowed.

Sequences are embedded as `List Nat` of code-unit values (bytes on POSIX,
16-bit units on Windows).  Relevant code points: 9 tab, 10 newline, 32 space,
33 bang, 34 double quote, 39 single quote, 92 backslash.
-/

namespace YaziEscape

namespace Unix

/-- Embeds `unix::allowed`: bytes that never need quoting
(`a`-`z`, `A`-`Z`, `0`-`9`, `-`, `_`, `=`, `/`, `,`, `.`, `+`). -/
def allowed (b : Nat) : Bool :=
  decide ((97 ≤ b ∧ b ≤ 122) ∨ (65 ≤ b ∧ b ≤ 90) ∨ (48 ≤ b ∧ b ≤ 57) ∨
    b = 45 ∨ b = 95 ∨ b = 61 ∨ b = 47 ∨ b = 44 ∨ b = 46 ∨ b = 43)

/-- Embeds `unix::escape`: fast path returns the input unchanged when it is
non-empty and all bytes are allowed; otherwise the input is wrapped in single
quotes (39), and each quote (39) or bang (33) byte is emitted as the four
bytes quote, backslash, byte, quote. -/
def escape (s : List Nat) : List Nat :=
  if s ≠ [] ∧ s.all allowed = true then s
  else
    (s.foldl (fun acc b =>
      if b = 39 ∨ b = 33 then acc ++ [39, 92, b, 39] else acc ++ [b]) [39]) ++ [39]

/-- The per-byte emission of the quoting loop of `unix::escape`: a quote or
bang byte becomes the splice quote, backslash, byte, quote; any other byte
passes through unchanged. -/
def splice (b : Nat) : List Nat :=
  if b = 39 ∨ b = 33 then [39, 92, b, 39] else [b]

end Unix

namespace Windows

/-- Embeds `windows::disallowed`: a unit forces quoting when `char::from_u32`
fails on it (surrogates 0xD800-0xDFFF, and values above 0x10FFFF) or when it
is a space, double quote, newline or tab. -/
def disallowed (u : Nat) : Bool :=
  if (55296 ≤ u ∧ u ≤ 57343) ∨ 1114112 ≤ u then true
  else decide (u = 32 ∨ u = 34 ∨ u = 10 ∨ u = 9)

/-- Embeds the scanning loop of `windows::escape`: `slashes` is the count of
pending consumed backslashes (92).  A run followed by a double quote (34) is
emitted as twice-plus-one backslashes and the quote; a run followed by any
other unit is emitted unchanged before that unit; a trailing run is doubled. -/
def scanLoop : Nat → List Nat → List Nat
  | slashes, [] => List.replicate (2 * slashes) 92
  | slashes, c :: rest =>
    if c = 92 then scanLoop (slashes + 1) rest
    else if c = 34 then List.replicate (2 * slashes + 1) 92 ++ 34 :: scanLoop 0 rest
    else List.replicate slashes 92 ++ c :: scanLoop 0 rest

/-- Embeds `windows::escape`: fast path returns the input unchanged when it is
non-empty and no unit is disallowed; otherwise the scanned body is wrapped in
double quotes (34). -/
def escape (s : List Nat) : List Nat :=
  if s ≠ [] ∧ s.any disallowed = false then s
  else 34 :: (scanLoop 0 s ++ [34])

end Windows

namespace Shell

/-- Modelled from the spec: bytes that a POSIX shell tokenizer does not take
as a plain literal character outside quotes (whitespace, operators, expansion
and globbing triggers, comment, history expansion, brace and tilde). -/
def metaByte (b : Nat) : Bool :=
  decide (b = 32 ∨ b = 9 ∨ b = 10 ∨ b = 124 ∨ b = 38 ∨ b = 59 ∨ b = 60 ∨
    b = 62 ∨ b = 40 ∨ b = 41 ∨ b = 36 ∨ b = 96 ∨ b = 34 ∨ b = 42 ∨ b = 63 ∨
    b = 91 ∨ b = 35 ∨ b = 126 ∨ b = 33 ∨ b = 123 ∨ b = 125)

/-- Modelled from the spec: the POSIX single-quote tokenizer for one argument.
The flag says whether we are inside a single-quoted span.  Inside a span every
byte is literal except the closing quote.  Outside, a quote opens a span, a
backslash makes the next byte literal, a meta byte means the input is not one
plain token, and any other byte is literal.  `none` on an unterminated quote,
a trailing backslash, or a meta byte. -/
def posixTok : Bool → List Nat → Option (List Nat)
  | true, [] => none
  | true, b :: rest =>
    if b = 39 then posixTok false rest
    else (posixTok true rest).map (fun t => b :: t)
  | false, [] => some []
  | false, b :: rest =>
    if b = 39 then posixTok true rest
    else if b = 92 then
      match rest with
      | [] => none
      | c :: rest2 => (posixTok false rest2).map (fun t => c :: t)
    else if metaByte b = true then none
    else (posixTok false rest).map (fun t => b :: t)

/-- Modelled from the spec: the Windows command-line-to-argv convention for
one argument.  `pending` counts backslashes (92) read but not yet emitted and
the flag says whether we are inside a double-quoted span.  A double quote (34)
after an even run halves the run and toggles the span; after an odd run it
halves the run and is a literal quote.  Backslashes not followed by a quote
are literal, an unquoted space or tab means the input is more than one token,
and everything else is literal. -/
def winTok : Nat → Bool → List Nat → Option (List Nat)
  | pending, _, [] => some (List.replicate pending 92)
  | pending, inQ, c :: rest =>
    if c = 92 then winTok (pending + 1) inQ rest
    else if c = 34 then
      if pending % 2 = 0 then
        (winTok 0 (!inQ) rest).map (fun t => List.replicate (pending / 2) 92 ++ t)
      else
        (winTok 0 inQ rest).map (fun t => List.replicate (pending / 2) 92 ++ 34 :: t)
    else if inQ = false ∧ (c = 32 ∨ c = 9) then none
    else (winTok 0 inQ rest).map (fun t => List.replicate pending 92 ++ c :: t)

end Shell

section UnixLemmas

lemma unix_loop_eq (s : List Nat) (acc : List Nat) :
    s.foldl (fun acc b =>
      if b = 39 ∨ b = 33 then acc ++ [39, 92, b, 39] else acc ++ [b]) acc
      = acc ++ s.flatMap Unix.splice := by
  induction s generalizing acc with
  | nil => simp
  | cons b rest ih =>
    simp only [List.foldl_cons, List.flatMap_cons, ih, Unix.splice]
    split <;> simp

lemma unix_escape_quoted (s : List Nat) (h : ¬(s ≠ [] ∧ s.all Unix.allowed = true)) :
    Unix.escape s = 39 :: (s.flatMap Unix.splice ++ [39]) := by
  rw [Unix.escape, if_neg h, unix_loop_eq]
  simp

lemma unix_splice_length (s : List Nat) :
    s.length ≤ (s.flatMap Unix.splice).length ∧
      (s.flatMap Unix.splice).length ≤ 4 * s.length := by
  induction s with
  | nil => simp
  | cons b rest ih =>
    obtain ⟨ih1, ih2⟩ := ih
    have h1 : (Unix.splice b).length = 1 ∨ (Unix.splice b).length = 4 := by
      rw [Unix.splice]
      split <;> simp
    rw [List.flatMap_cons, List.length_append, List.length_cons]
    rcases h1 with h | h <;> rw [h] <;> omega

lemma unix_eq_self_iff (s : List Nat) :
    Unix.escape s = s ↔ (s ≠ [] ∧ s.all Unix.allowed = true) := by
  constructor
  · intro h
    by_contra hc
    rw [unix_escape_quoted s hc] at h
    have hl := congrArg List.length h
    have hs := (unix_splice_length s).1
    simp only [List.length_cons, List.length_append] at hl
    omega
  · intro h
    rw [Unix.escape, if_pos h]

lemma allowed_facts {b : Nat} (h : Unix.allowed b = true) :
    Shell.metaByte b = false ∧ b ≠ 39 ∧ b ≠ 92 := by
  rw [Unix.allowed, decide_eq_true_eq] at h
  rw [Shell.metaByte, decide_eq_false_iff_not]
  omega

lemma posixTok_quote_enter (l : List Nat) :
    Shell.posixTok false (39 :: l) = Shell.posixTok true l := by
  rw [Shell.posixTok.eq_def]
  simp

lemma posixTok_quote_exit (l : List Nat) :
    Shell.posixTok true (39 :: l) = Shell.posixTok false l := by
  rw [Shell.posixTok.eq_def]
  simp

lemma posixTok_backslash (c : Nat) (l : List Nat) :
    Shell.posixTok false (92 :: c :: l) = (Shell.posixTok false l).map (fun t => c :: t) := by
  rw [Shell.posixTok.eq_def]
  simp

lemma posixTok_true_other {b : Nat} (h : b ≠ 39) (l : List Nat) :
    Shell.posixTok true (b :: l) = (Shell.posixTok true l).map (fun t => b :: t) := by
  rw [Shell.posixTok.eq_def]
  simp [h]

lemma posixTok_false_other {b : Nat} (h39 : b ≠ 39) (h92 : b ≠ 92)
    (hm : Shell.metaByte b = false) (l : List Nat) :
    Shell.posixTok false (b :: l) = (Shell.posixTok false l).map (fun t => b :: t) := by
  rw [Shell.posixTok.eq_def]
  simp [h39, h92, hm]

lemma posix_fast_tok (s : List Nat) (h : s.all Unix.allowed = true) :
    Shell.posixTok false s = some s := by
  induction s with
  | nil => rfl
  | cons b rest ih =>
    simp only [List.all_cons, Bool.and_eq_true] at h
    obtain ⟨hm, h39, h92⟩ := allowed_facts h.1
    rw [posixTok_false_other h39 h92 hm, ih h.2]
    rfl

lemma posix_quoted_tok (s : List Nat) :
    Shell.posixTok true (s.flatMap Unix.splice ++ [39]) = some s := by
  induction s with
  | nil => rfl
  | cons b rest ih =>
    by_cases hb : b = 39 ∨ b = 33
    · have hsp : Unix.splice b = [39, 92, b, 39] := by rw [Unix.splice, if_pos hb]
      rw [List.flatMap_cons, hsp, List.append_assoc]
      simp only [List.cons_append, List.nil_append]
      rw [posixTok_quote_exit, posixTok_backslash, posixTok_quote_enter, ih]
      rfl
    · have hsp : Unix.splice b = [b] := by rw [Unix.splice, if_neg hb]
      have h39 : b ≠ 39 := fun hx => hb (Or.inl hx)
      rw [List.flatMap_cons, hsp, List.append_assoc]
      simp only [List.cons_append, List.nil_append]
      rw [posixTok_true_other h39, ih]
      rfl

end UnixLemmas

section WindowsLemmas

lemma replicate_cons (n : Nat) (a : Nat) (l : List Nat) :
    List.replicate n a ++ a :: l = List.replicate (n + 1) a ++ l := by
  induction n with
  | zero => simp
  | succ n ih => simp [List.replicate_succ, ih]

lemma scanLoop_nil (n : Nat) :
    Windows.scanLoop n [] = List.replicate (2 * n) 92 := by
  rw [Windows.scanLoop.eq_def]

lemma scanLoop_slash (n : Nat) (l : List Nat) :
    Windows.scanLoop n (92 :: l) = Windows.scanLoop (n + 1) l := by
  rw [Windows.scanLoop.eq_def]
  simp

lemma scanLoop_quote (n : Nat) (l : List Nat) :
    Windows.scanLoop n (34 :: l)
      = List.replicate (2 * n + 1) 92 ++ 34 :: Windows.scanLoop 0 l := by
  rw [Windows.scanLoop.eq_def]
  simp

lemma scanLoop_other {c : Nat} (h92 : c ≠ 92) (h34 : c ≠ 34) (n : Nat) (l : List Nat) :
    Windows.scanLoop n (c :: l) = List.replicate n 92 ++ c :: Windows.scanLoop 0 l := by
  rw [Windows.scanLoop.eq_def]
  simp [h92, h34]

lemma scanLoop_slashes (k : Nat) : ∀ (n : Nat) (s : List Nat),
    Windows.scanLoop n (List.replicate k 92 ++ s) = Windows.scanLoop (n + k) s := by
  induction k with
  | zero => intro n s; simp
  | succ k ih =>
    intro n s
    rw [List.replicate_succ, List.cons_append, scanLoop_slash, ih (n + 1)]
    have h : n + 1 + k = n + (k + 1) := by omega
    rw [h]

lemma scanLoop_length (s : List Nat) : ∀ n : Nat,
    s.length + n ≤ (Windows.scanLoop n s).length ∧
      (Windows.scanLoop n s).length ≤ 2 * (n + s.length) := by
  induction s with
  | nil =>
    intro n
    rw [scanLoop_nil]
    simp
    omega
  | cons c rest ih =>
    intro n
    by_cases h92 : c = 92
    · subst h92
      rw [scanLoop_slash]
      have := ih (n + 1)
      simp only [List.length_cons]
      omega
    · by_cases h34 : c = 34
      · subst h34
        rw [scanLoop_quote]
        have := ih 0
        simp only [List.length_append, List.length_replicate, List.length_cons]
        omega
      · rw [scanLoop_other h92 h34]
        have := ih 0
        simp only [List.length_append, List.length_replicate, List.length_cons]
        omega

lemma windows_escape_quoted (s : List Nat)
    (h : ¬(s ≠ [] ∧ s.any Windows.disallowed = false)) :
    Windows.escape s = 34 :: (Windows.scanLoop 0 s ++ [34]) := by
  rw [Windows.escape, if_neg h]

lemma windows_eq_self_iff (s : List Nat) :
    Windows.escape s = s ↔ (s ≠ [] ∧ s.any Windows.disallowed = false) := by
  constructor
  · intro h
    by_contra hc
    rw [windows_escape_quoted s hc] at h
    have hl := congrArg List.length h
    have hs := (scanLoop_length s 0).1
    simp only [List.length_cons, List.length_append] at hl
    omega
  · intro h
    rw [Windows.escape, if_pos h]

lemma winTok_slash (n : Nat) (inQ : Bool) (l : List Nat) :
    Shell.winTok n inQ (92 :: l) = Shell.winTok (n + 1) inQ l := by
  rw [Shell.winTok.eq_def]
  simp

lemma winTok_quote_even {n : Nat} (h : n % 2 = 0) (inQ : Bool) (l : List Nat) :
    Shell.winTok n inQ (34 :: l)
      = (Shell.winTok 0 (!inQ) l).map (fun t => List.replicate (n / 2) 92 ++ t) := by
  rw [Shell.winTok.eq_def]
  simp [h]

lemma winTok_quote_odd {n : Nat} (h : n % 2 = 1) (inQ : Bool) (l : List Nat) :
    Shell.winTok n inQ (34 :: l)
      = (Shell.winTok 0 inQ l).map (fun t => List.replicate (n / 2) 92 ++ 34 :: t) := by
  rw [Shell.winTok.eq_def]
  simp [h]

lemma winTok_other {c : Nat} (h92 : c ≠ 92) (h34 : c ≠ 34) {inQ : Bool}
    (hd : ¬(inQ = false ∧ (c = 32 ∨ c = 9))) (n : Nat) (l : List Nat) :
    Shell.winTok n inQ (c :: l)
      = (Shell.winTok 0 inQ l).map (fun t => List.replicate n 92 ++ c :: t) := by
  rw [Shell.winTok.eq_def]
  simp [h92, h34, hd]

lemma winTok_slashes (k : Nat) : ∀ (n : Nat) (inQ : Bool) (l : List Nat),
    Shell.winTok n inQ (List.replicate k 92 ++ l) = Shell.winTok (n + k) inQ l := by
  induction k with
  | zero => intro n inQ l; simp
  | succ k ih =>
    intro n inQ l
    rw [List.replicate_succ, List.cons_append, winTok_slash, ih (n + 1)]
    have h : n + 1 + k = n + (k + 1) := by omega
    rw [h]

lemma win_scan_tok (s : List Nat) : ∀ n : Nat,
    Shell.winTok 0 true (Windows.scanLoop n s ++ [34])
      = some (List.replicate n 92 ++ s) := by
  induction s with
  | nil =>
    intro n
    rw [scanLoop_nil, winTok_slashes (2 * n) 0 true [34]]
    have h0 : (2 * n) % 2 = 0 := by omega
    have h2 : 2 * n / 2 = n := by omega
    rw [Nat.zero_add, winTok_quote_even h0]
    rw [Shell.winTok.eq_def]
    simp [h2]
  | cons c rest ih =>
    intro n
    by_cases h92 : c = 92
    · subst h92
      rw [scanLoop_slash, ih (n + 1), replicate_cons]
    · by_cases h34 : c = 34
      · subst h34
        rw [scanLoop_quote, List.append_assoc, List.cons_append,
          winTok_slashes (2 * n + 1) 0 true]
        have h1 : (2 * n + 1) % 2 = 1 := by omega
        have h2 : (2 * n + 1) / 2 = n := by omega
        rw [Nat.zero_add, winTok_quote_odd h1, ih 0]
        simp [h2]
      · rw [scanLoop_other h92 h34, List.append_assoc, List.cons_append,
          winTok_slashes n 0 true]
        have hd : ¬(true = false ∧ (c = 32 ∨ c = 9)) := by simp
        rw [Nat.zero_add, winTok_other h92 h34 hd, ih 0]
        simp

lemma win_fast_tok (s : List Nat) (h : s.any Windows.disallowed = false) :
    ∀ n : Nat, Shell.winTok n false s = some (List.replicate n 92 ++ s) := by
  induction s with
  | nil =>
    intro n
    rw [Shell.winTok.eq_def]
    simp
  | cons c rest ih =>
    simp only [List.any_cons, Bool.or_eq_false_iff] at h
    obtain ⟨hc, hrest⟩ := h
    intro n
    by_cases h92 : c = 92
    · subst h92
      rw [winTok_slash, ih hrest (n + 1), replicate_cons]
    · have h34 : c ≠ 34 := by
        rintro rfl
        exact absurd hc (by decide)
      have hd : ¬(false = false ∧ (c = 32 ∨ c = 9)) := by
        rintro ⟨-, rfl | rfl⟩ <;> exact absurd hc (by decide)
      rw [winTok_other h92 h34 hd, ih hrest 0]
      simp

end WindowsLemmas

section PreservationLemmas

lemma splice_sublist (s : List Nat) : s.Sublist (s.flatMap Unix.splice) := by
  induction s with
  | nil => simp
  | cons b rest ih =>
    rw [List.flatMap_cons]
    have hb : [b].Sublist (Unix.splice b) := by
      rw [List.singleton_sublist, Unix.splice]
      split <;> simp
    exact List.Sublist.append hb ih

lemma scanLoop_sublist (s : List Nat) : ∀ n : Nat,
    (List.replicate n 92 ++ s).Sublist (Windows.scanLoop n s) := by
  induction s with
  | nil =>
    intro n
    rw [scanLoop_nil, List.append_nil]
    rw [List.replicate_sublist_replicate]
    omega
  | cons c rest ih =>
    intro n
    by_cases h92 : c = 92
    · subst h92
      rw [scanLoop_slash, replicate_cons]
      exact ih (n + 1)
    · by_cases h34 : c = 34
      · subst h34
        rw [scanLoop_quote]
        refine List.Sublist.append ?_ (List.Sublist.cons₂ 34 ?_)
        · rw [List.replicate_sublist_replicate]
          omega
        · simpa using ih 0
      · rw [scanLoop_other h92 h34]
        exact List.Sublist.append (List.Sublist.refl _)
          (List.Sublist.cons₂ c (by simpa using ih 0))

lemma allowed_high {b : Nat} (h : 128 ≤ b) : Unix.allowed b = false := by
  rw [Unix.allowed, decide_eq_false_iff_not]
  omega

lemma disallowed_surrogate {u : Nat} (h1 : 55296 ≤ u) (h2 : u ≤ 57343) :
    Windows.disallowed u = true := by
  rw [Windows.disallowed, if_pos (Or.inl ⟨h1, h2⟩)]

end PreservationLemmas

section SmokeTests

example : Unix.escape [] = [39, 39] := by decide

example : Unix.escape [105, 116, 39, 115] = [39, 105, 116, 39, 92, 39, 39, 115, 39] := by decide

example : Windows.escape [] = [34, 34] := by decide

example : Windows.escape [34] = [34, 92, 34, 34] := by decide

example : Windows.escape [92, 97, 92, 92] = [92, 97, 92, 92] := by decide

example : Windows.escape [97, 32, 92, 92] = [34, 97, 32, 92, 92, 92, 92, 34] := by decide

example : Shell.posixTok false (Unix.escape [105, 116, 39, 115]) = some [105, 116, 39, 115] := by decide

example : Shell.winTok 0 false (Windows.escape [92, 97, 92, 92]) = some [92, 97, 92, 92] := by decide

example : Shell.winTok 0 false (Windows.escape [45, 45, 102, 34, 100, 34]) = some [45, 45, 102, 34, 100, 34] := by decide

end SmokeTests

/-- Claim C1: for every input sequence, writing the escape result verbatim
into a command line and re-tokenizing it with the target platform argument
parser (POSIX single-quote rules for the POSIX escaper, the Windows
command-line-to-argv backslash and quote convention for the Windows escaper)
yields back exactly the original sequence, including for the empty sequence
and for units with no valid text interpretation. -/
theorem claim_C1_round_trip :
    (∀ s : List Nat, Shell.posixTok false (Unix.escape s) = some s) ∧
    (∀ s : List Nat, Shell.winTok 0 false (Windows.escape s) = some s) := by
  constructor
  · intro s
    by_cases h : s ≠ [] ∧ s.all Unix.allowed = true
    · rw [(unix_eq_self_iff s).mpr h]
      exact posix_fast_tok s h.2
    · rw [unix_escape_quoted s h, posixTok_quote_enter, posix_quoted_tok]
  · intro s
    by_cases h : s ≠ [] ∧ s.any Windows.disallowed = false
    · rw [(windows_eq_self_iff s).mpr h]
      simpa using win_fast_tok s h.2 0
    · rw [windows_escape_quoted s h,
        winTok_quote_even (by omega) false (Windows.scanLoop 0 s ++ [34])]
      simp [win_scan_tok s 0]

/-- Claim C2: in the Windows quoting scan, a maximal run of n backslashes
followed by a double quote is emitted as 2n+1 backslashes and the quote; a
run followed by any other unit is emitted as n backslashes unchanged followed
by that unit, which passes through; and a trailing run is doubled to 2n
backslashes at end of input. -/
theorem claim_C2_windows_runs :
    (∀ (n : Nat) (rest : List Nat),
      Windows.scanLoop 0 (List.replicate n 92 ++ 34 :: rest)
        = List.replicate (2 * n + 1) 92 ++ 34 :: Windows.scanLoop 0 rest) ∧
    (∀ (n c : Nat) (rest : List Nat), c ≠ 92 → c ≠ 34 →
      Windows.scanLoop 0 (List.replicate n 92 ++ c :: rest)
        = List.replicate n 92 ++ c :: Windows.scanLoop 0 rest) ∧
    (∀ n : Nat, Windows.scanLoop 0 (List.replicate n 92)
        = List.replicate (2 * n) 92) := by
  refine ⟨?_, ?_, ?_⟩
  · intro n rest
    rw [scanLoop_slashes n 0, Nat.zero_add, scanLoop_quote]
  · intro n c rest h92 h34
    rw [scanLoop_slashes n 0, Nat.zero_add, scanLoop_other h92 h34]
  · intro n
    have h : List.replicate n 92 = List.replicate n 92 ++ ([] : List Nat) := by simp
    rw [h, scanLoop_slashes n 0, Nat.zero_add, scanLoop_nil]

/-- Witness for claim C2 at concrete inputs: a run of two backslashes before
a quote, a run of two backslashes before a letter, and a trailing run of
three backslashes. -/
theorem claim_C2_witness :
    ((97 : Nat) ≠ 92 ∧ (97 : Nat) ≠ 34) ∧
    Windows.scanLoop 0 (List.replicate 2 92 ++ 34 :: [97])
      = List.replicate (2 * 2 + 1) 92 ++ 34 :: Windows.scanLoop 0 [97] ∧
    Windows.scanLoop 0 (List.replicate 2 92 ++ 97 :: [34])
      = List.replicate 2 92 ++ 97 :: Windows.scanLoop 0 [34] ∧
    Windows.scanLoop 0 (List.replicate 3 92) = List.replicate (2 * 3) 92 :=
  ⟨⟨by decide, by decide⟩, claim_C2_windows_runs.1 2 [97],
    claim_C2_windows_runs.2.1 2 97 [34] (by decide) (by decide),
    claim_C2_windows_runs.2.2 3⟩

/-- Claim C3: on the quoting path the POSIX escaper emits an opening single
quote, then the input bytes in order where each quote (39) or bang (33) byte
becomes the four bytes quote, backslash, byte, quote (the splice) and every
other byte passes through unchanged, then a closing quote; in particular the
input it-apostrophe-s yields the documented output, and so does the input
with embedded double quotes. -/
theorem claim_C3_posix_quoting :
    (∀ s : List Nat, ¬(s ≠ [] ∧ s.all Unix.allowed = true) →
      Unix.escape s = 39 :: (s.flatMap (fun b =>
        if b = 39 ∨ b = 33 then [39, 92, b, 39] else [b]) ++ [39])) ∧
    Unix.escape [105, 116, 39, 115] = [39, 105, 116, 39, 92, 39, 39, 115, 39] ∧
    Unix.escape [45, 45, 102, 101, 97, 116, 117, 114, 101, 115, 61, 34, 100,
        101, 102, 97, 117, 108, 116, 34]
      = [39, 45, 45, 102, 101, 97, 116, 117, 114, 101, 115, 61, 34, 100,
        101, 102, 97, 117, 108, 116, 34, 39] := by
  refine ⟨?_, by decide, by decide⟩
  intro s h
  have hf : (fun b => if b = 39 ∨ b = 33 then [39, 92, b, 39] else [b])
      = Unix.splice := rfl
  rw [hf]
  exact unix_escape_quoted s h

/-- Witness for claim C3: the single-byte input bang is not on the fast path
and is emitted as the quoted splice. -/
theorem claim_C3_witness :
    ¬(([33] : List Nat) ≠ [] ∧ ([33] : List Nat).all Unix.allowed = true) ∧
    Unix.escape [33] = 39 :: (([33] : List Nat).flatMap (fun b =>
      if b = 39 ∨ b = 33 then [39, 92, b, 39] else [b]) ++ [39]) :=
  ⟨by decide, claim_C3_posix_quoting.1 [33] (by decide)⟩

/-- Claim C4: the POSIX escaper returns its input unchanged exactly when the
input is non-empty and every byte is allowed; the allowed set is lowercase
and uppercase letters, digits, dash, underscore, equals, slash, comma,
period and plus; any other input is changed by quoting. -/
theorem claim_C4_posix_fast_path :
    (∀ s : List Nat, Unix.escape s = s ↔ (s ≠ [] ∧ s.all Unix.allowed = true)) ∧
    (∀ b : Nat, Unix.allowed b = true ↔
      ((97 ≤ b ∧ b ≤ 122) ∨ (65 ≤ b ∧ b ≤ 90) ∨ (48 ≤ b ∧ b ≤ 57) ∨
        b = 45 ∨ b = 95 ∨ b = 61 ∨ b = 47 ∨ b = 44 ∨ b = 46 ∨ b = 43)) ∧
    (∀ s : List Nat, ¬(s ≠ [] ∧ s.all Unix.allowed = true) →
      Unix.escape s ≠ s) := by
  refine ⟨unix_eq_self_iff, ?_, ?_⟩
  · intro b
    rw [Unix.allowed, decide_eq_true_eq]
  · intro s h heq
    exact h ((unix_eq_self_iff s).mp heq)

/-- Witness for claim C4: the empty input is not on the fast path and is
changed by quoting. -/
theorem claim_C4_witness :
    ¬(([] : List Nat) ≠ [] ∧ ([] : List Nat).all Unix.allowed = true) ∧
    Unix.escape [] ≠ [] :=
  ⟨by decide, claim_C4_posix_fast_path.2.2 [] (by decide)⟩

/-- Claim C5: the Windows escaper returns its input unchanged exactly when
the input is non-empty and no unit is disallowed; and for 16-bit units a unit
is disallowed exactly when it is a space, double quote, newline or tab, or is
an unpaired surrogate (0xD800 to 0xDFFF, the units with no scalar value). -/
theorem claim_C5_windows_fast_path :
    (∀ s : List Nat, Windows.escape s = s ↔
      (s ≠ [] ∧ s.any Windows.disallowed = false)) ∧
    (∀ u : Nat, u < 65536 →
      (Windows.disallowed u = true ↔
        (u = 32 ∨ u = 34 ∨ u = 10 ∨ u = 9 ∨ (55296 ≤ u ∧ u ≤ 57343)))) := by
  refine ⟨windows_eq_self_iff, ?_⟩
  intro u hu
  rw [Windows.disallowed]
  split
  · simp only [true_iff]
    omega
  · rw [decide_eq_true_eq]
    omega

/-- Witness for claim C5: the leading surrogate 0xD800 is below 65536 and is
disallowed. -/
theorem claim_C5_witness :
    (55296 : Nat) < 65536 ∧
    (Windows.disallowed 55296 = true ↔
      ((55296 : Nat) = 32 ∨ (55296 : Nat) = 34 ∨ (55296 : Nat) = 10 ∨
        (55296 : Nat) = 9 ∨ (55296 ≤ (55296 : Nat) ∧ (55296 : Nat) ≤ 57343))) :=
  ⟨by decide, claim_C5_windows_fast_path.2 55296 (by decide)⟩

/-- Claim C6: on either platform, if the escape result equals the input then
the input is non-empty and every byte or unit satisfies the allowed or
not-disallowed predicate of that platform; the quoting path never reproduces
its input verbatim. -/
theorem claim_C6_no_silent_quote :
    (∀ s : List Nat, Unix.escape s = s → s ≠ [] ∧ s.all Unix.allowed = true) ∧
    (∀ s : List Nat, Windows.escape s = s →
      s ≠ [] ∧ s.any Windows.disallowed = false) :=
  ⟨fun s h => (unix_eq_self_iff s).mp h,
    fun s h => (windows_eq_self_iff s).mp h⟩

/-- Witness for claim C6: the single letter a is returned unchanged by both
escapers, and is indeed non-empty with every unit safe. -/
theorem claim_C6_witness :
    (Unix.escape [97] = [97] ∧
      ([97] : List Nat) ≠ [] ∧ ([97] : List Nat).all Unix.allowed = true) ∧
    (Windows.escape [97] = [97] ∧
      ([97] : List Nat) ≠ [] ∧ ([97] : List Nat).any Windows.disallowed = false) :=
  ⟨⟨by decide, claim_C6_no_silent_quote.1 [97] (by decide)⟩,
    ⟨by decide, claim_C6_no_silent_quote.2 [97] (by decide)⟩⟩

/-- Claim C7: on empty input the POSIX escaper returns exactly the two bytes
quote quote (39 39) and the Windows escaper returns exactly the two units
double-quote double-quote (34 34); a Windows input of a single double quote
yields that quote preceded by one escaping backslash, wrapped in the outer
quotes (34 92 34 34). -/
theorem claim_C7_empty_and_lone_quote :
    Unix.escape [] = [39, 39] ∧ Windows.escape [] = [34, 34] ∧
    Windows.escape [34] = [34, 92, 34, 34] := by
  refine ⟨by decide, by decide, by decide⟩

/-- Claim C8: malformed encodings are preserved: a POSIX input containing a
byte at or above 0x80 is returned wrapped in single quotes with all input
bytes preserved in order (each non-special byte verbatim), and a Windows
input containing a surrogate unit is quoted, never fast-pathed, with all
original units preserved in order. -/
theorem claim_C8_malformed_preserved :
    (∀ s : List Nat, (∃ b ∈ s, 128 ≤ b) →
      Unix.escape s = 39 :: (s.flatMap Unix.splice ++ [39]) ∧
        s.Sublist (Unix.escape s)) ∧
    (∀ s : List Nat, (∃ u ∈ s, 55296 ≤ u ∧ u ≤ 57343) →
      Windows.escape s = 34 :: (Windows.scanLoop 0 s ++ [34]) ∧
        s.Sublist (Windows.escape s)) := by
  constructor
  · intro s hb
    obtain ⟨b, hmem, h128⟩ := hb
    have hq : ¬(s ≠ [] ∧ s.all Unix.allowed = true) := by
      rintro ⟨-, hall⟩
      have := List.all_eq_true.mp hall b hmem
      rw [allowed_high h128] at this
      exact Bool.noConfusion this
    refine ⟨unix_escape_quoted s hq, ?_⟩
    rw [unix_escape_quoted s hq]
    exact ((splice_sublist s).trans (List.sublist_append_left _ [39])).cons 39
  · intro s hu
    obtain ⟨u, hmem, h1, h2⟩ := hu
    have hq : ¬(s ≠ [] ∧ s.any Windows.disallowed = false) := by
      rintro ⟨-, hany⟩
      have := List.any_eq_false.mp hany u hmem
      rw [disallowed_surrogate h1 h2] at this
      exact this rfl
    refine ⟨windows_escape_quoted s hq, ?_⟩
    rw [windows_escape_quoted s hq]
    have hs : s.Sublist (Windows.scanLoop 0 s) := by simpa using scanLoop_sublist s 0
    exact (hs.trans (List.sublist_append_left _ [34])).cons 34

/-- Witness for claim C8: the single high byte 0x80 on POSIX and the single
unpaired surrogate 0xD800 on Windows. -/
theorem claim_C8_witness :
    ((∃ b ∈ ([128] : List Nat), 128 ≤ b) ∧
      (Unix.escape [128] = 39 :: (([128] : List Nat).flatMap Unix.splice ++ [39]) ∧
        ([128] : List Nat).Sublist (Unix.escape [128]))) ∧
    ((∃ u ∈ ([55296] : List Nat), 55296 ≤ u ∧ u ≤ 57343) ∧
      (Windows.escape [55296] = 34 :: (Windows.scanLoop 0 [55296] ++ [34]) ∧
        ([55296] : List Nat).Sublist (Windows.escape [55296]))) :=
  ⟨⟨by decide, claim_C8_malformed_preserved.1 [128] (by decide)⟩,
    ⟨by decide, claim_C8_malformed_preserved.2 [55296] (by decide)⟩⟩

/-- Claim C9: both escapers are total functions over all input sequences:
they are defined by structural recursion with a plain sequence result, no
error value and no rejected input, and for every input (empty, invalid bytes,
unpaired surrogates alike) the result is a finite sequence of explicitly
bounded length, so the scanning loops terminate on every finite input. -/
theorem claim_C9_totality :
    ∀ s : List Nat, (Unix.escape s).length ≤ 4 * s.length + 2 ∧
      (Windows.escape s).length ≤ 2 * s.length + 2 := by
  intro s
  constructor
  · by_cases h : s ≠ [] ∧ s.all Unix.allowed = true
    · rw [(unix_eq_self_iff s).mpr h]
      omega
    · rw [unix_escape_quoted s h]
      have := (unix_splice_length s).2
      simp only [List.length_cons, List.length_append, List.length_nil]
      omega
  · by_cases h : s ≠ [] ∧ s.any Windows.disallowed = false
    · rw [(windows_eq_self_iff s).mpr h]
      omega
    · rw [windows_escape_quoted s h]
      have := (scanLoop_length s 0).2
      simp only [List.length_cons, List.length_append, List.length_nil]
      omega

/-- Claim C10: the Windows disallowed predicate is per-unit and context free:
every unit in the surrogate range 0xD800 to 0xDFFF is disallowed regardless
of its neighbours, so an input containing a well-formed surrogate pair (a
supplementary-plane character) is never returned through the fast path: it
is always quoted. -/
theorem claim_C10_surrogate_pairs_quoted :
    (∀ u : Nat, 55296 ≤ u → u ≤ 57343 → Windows.disallowed u = true) ∧
    (∀ (pre post : List Nat) (hi lo : Nat),
      55296 ≤ hi → hi ≤ 56319 → 56320 ≤ lo → lo ≤ 57343 →
      Windows.escape (pre ++ hi :: lo :: post) ≠ pre ++ hi :: lo :: post ∧
      Windows.escape (pre ++ hi :: lo :: post)
        = 34 :: (Windows.scanLoop 0 (pre ++ hi :: lo :: post) ++ [34])) := by
  constructor
  · intro u h1 h2
    exact disallowed_surrogate h1 h2
  · intro pre post hi lo hh1 hh2 hl1 hl2
    have hmem : hi ∈ pre ++ hi :: lo :: post := by simp
    have hq : ¬(pre ++ hi :: lo :: post ≠ [] ∧
        (pre ++ hi :: lo :: post).any Windows.disallowed = false) := by
      rintro ⟨-, hany⟩
      have := List.any_eq_false.mp hany hi hmem
      rw [disallowed_surrogate hh1 (by omega)] at this
      exact this rfl
    constructor
    · intro heq
      exact hq ((windows_eq_self_iff _).mp heq)
    · exact windows_escape_quoted _ hq

/-- Witness for claim C10: the two units of the emoji U+1F600 form a valid
surrogate pair, and the input consisting of exactly that pair is quoted, not
returned unchanged. -/
theorem claim_C10_witness :
    ((55296 : Nat) ≤ 55296 ∧ (55296 : Nat) ≤ 57343 ∧
      Windows.disallowed 55296 = true) ∧
    ((55296 : Nat) ≤ 55357 ∧ (55357 : Nat) ≤ 56319 ∧
      (56320 : Nat) ≤ 56832 ∧ (56832 : Nat) ≤ 57343) ∧
    (Windows.escape ([] ++ 55357 :: 56832 :: []) ≠ [] ++ 55357 :: 56832 :: [] ∧
      Windows.escape ([] ++ 55357 :: 56832 :: [])
        = 34 :: (Windows.scanLoop 0 ([] ++ 55357 :: 56832 :: []) ++ [34])) :=
  ⟨⟨by decide, by decide,
      claim_C10_surrogate_pairs_quoted.1 55296 (by decide) (by decide)⟩,
    ⟨by decide, by decide, by decide, by decide⟩,
    claim_C10_surrogate_pairs_quoted.2 [] [] 55357 56832
      (by decide) (by decide) (by decide) (by decide)⟩

end YaziEscape
